import Mathlib

/-!
Shallow embedding of the expression-splitting and arithmetic-composition
subsystem of `src/core/models/base_model.py` (class `TransductionModel`).

Modelling conventions:
* A tensor is abstracted to a 1-D integer list (`TVec`); its length stands for
  the leading (time or layer) dimension.  `torch.cat` along dimension 0 is
  list append.  Elementwise arithmetic follows torch broadcasting on the
  modelled dimension: equal lengths combine pointwise, a length-1 operand is
  broadcast against the other, and any other length mismatch is a runtime
  shape error.
* A tensor-valued attribute (`TVal`) is either a single tensor or a 2-tuple of
  tensors (recurrent hidden state + cell state).
* The source's dynamic attribute object (the bag the code calls `ModelIO`,
  here `EncBag` because the spec calls it "EncodingBag") is an insertion
  ordered association list from field names to values; an absent key is
  distinguishable from any present value, matching the python object's
  attribute dictionary.  The field the code calls `annotation` is named `tag`
  here.
* Python exceptions (IndexError, AttributeError, arithmetic TypeError or
  shape RuntimeError, NotImplementedError, AssertionError) become the
  constructors of `RErr`, and fallible code returns `Except RErr`.
* The encoder and decoder are external collaborators (their code is not part
  of this subsystem); all functions are parametrised over them, with
  `enc : List Int → EncBag` standing for `self._encoder(·)` and
  `encH : List Int → Option TVal → EncBag` for
  `self._encoder.forward_with_hidden(·, hidden=·)`.  The decoder call is the
  boundary of the subsystem, so the composition functions return the composite
  bag that would be handed to the decoder.
-/

deriving instance DecidableEq for Except

namespace Transduction

/-- 1-D integer list standing in for a tensor. -/
abbrev TVec := List Int

/-- The python exceptions that can escape the embedded code. -/
inductive RErr
  | indexErr
  | attrErr
  | opErr
  | notImpl
  | assertErr
deriving DecidableEq

/-- `torch.add` with broadcasting on the modelled leading dimension: equal
sizes combine elementwise, a size-1 operand is broadcast against the other,
and any other size mismatch raises (python `RuntimeError`). -/
def vAdd (a b : TVec) : Except RErr TVec :=
  if a.length = b.length then .ok (List.zipWith (fun x y => x + y) a b)
  else if a.length = 1 then .ok (b.map (fun y => a.headD 0 + y))
  else if b.length = 1 then .ok (a.map (fun x => x + b.headD 0))
  else .error .opErr

/-- `torch.subtract` with the same broadcasting rule as `vAdd`. -/
def vSub (a b : TVec) : Except RErr TVec :=
  if a.length = b.length then .ok (List.zipWith (fun x y => x - y) a b)
  else if a.length = 1 then .ok (b.map (fun y => a.headD 0 - y))
  else if b.length = 1 then .ok (a.map (fun x => x - b.headD 0))
  else .error .opErr

/-- A field value: a single tensor or a 2-tuple (hidden, cell). -/
inductive TVal
  | single (v : TVec)
  | pair (a b : TVec)
deriving DecidableEq

/-- The attribute names the embedded code touches on its bags. -/
inductive BagKey
  | source
  | transform
  | enc_hidden
  | enc_outputs
deriving DecidableEq

/-- Attribute bag: insertion-ordered association list (python `__dict__`). -/
abbrev EncBag := List (BagKey × TVal)

/-- `getattr(bag, key)` as an `Option` (used under `try`/`except`). -/
def getAttr (b : EncBag) (f : BagKey) : Option TVal :=
  match b.find? (fun p => p.1 == f) with
  | some p => some p.2
  | none => none

/-- `getattr(bag, key)` raising `AttributeError` when the field is absent. -/
def attrE (b : EncBag) (f : BagKey) : Except RErr TVal :=
  match getAttr b f with
  | some v => .ok v
  | none => .error .attrErr

/-- `bag.set_attribute(key, value)`: overwrite if present, append otherwise. -/
def setAttr (b : EncBag) (f : BagKey) (v : TVal) : EncBag :=
  if (b.find? (fun p => p.1 == f)).isSome then
    b.map (fun p => if p.1 == f then (f, v) else p)
  else
    b ++ [(f, v)]

/-- `lst[i]` raising `IndexError` when out of range. -/
def idxE {α : Type} (l : List α) (i : Nat) : Except RErr α :=
  match l.get? i with
  | some x => .ok x
  | none => .error .indexErr

/-- `lst[0]` raising `IndexError` on an empty list. -/
def headE {α : Type} (l : List α) : Except RErr α :=
  match l with
  | [] => .error .indexErr
  | x :: _ => .ok x

/-- Sequential fail-fast map over `Except`, mirroring a python list
comprehension in which any element may raise. -/
def mapME {α β : Type} (f : α → Except RErr β) : List α → Except RErr (List β)
  | [] => .ok []
  | x :: xs => do
    let y ← f x
    let ys ← mapME f xs
    .ok (y :: ys)

/-! ### The arithmetic fold of `forward_expression` / `forward_expression_eos`

Source lines 93-113 and 363-383 are the same loop: a buffer with keys
`enc_hidden` and `enc_outputs` is threaded through a list that mixes operator
strings and encoded bags; `should_operate` is falsy initially, is set by a
string (`torch.add` for `"+"`, `torch.subtract` for anything else), and is
reset after each combination.  Every field access and arithmetic operation
sits inside a bare `try`/`except` that turns any failure into `None`. -/

/-- One element of the representation list: an operator string or an encoded
sub-expression bag. -/
inductive RTerm
  | opStr (s : String)
  | enc (b : EncBag)

/-- The `buffer` dictionary `{"enc_hidden": ..., "enc_outputs": ...}`. -/
structure Buffer where
  enc_hidden : Option TVal := none
  enc_outputs : Option TVal := none
deriving DecidableEq

/-- `torch.add` / `torch.subtract` on field values; applying either to a
tuple raises (python `TypeError`). -/
def applyOpT (isAdd : Bool) : TVal → TVal → Except RErr TVal
  | .single a, .single b =>
    (if isAdd then vAdd a b else vSub a b).map .single
  | _, _ => .error .opErr

/-- `should_operate(buffer[key], getattr(r, key))` under the bare
`try`/`except`: any failure (absent field, `None` operand, shape mismatch,
tuple operand) becomes `None`. -/
def tryCombine (isAdd : Bool) (cur : Option TVal) (v : Option TVal) : Option TVal :=
  match cur, v with
  | some c, some x => (applyOpT isAdd c x).toOption
  | _, _ => none

/-- One iteration of the arithmetic loop.  The `Option Bool` component is
`should_operate`: `none` is python `False`, `some isAdd` is the pending
operator. -/
def foldStep (st : Buffer × Option Bool) (t : RTerm) : Buffer × Option Bool :=
  match t with
  | .opStr s => (st.1, some (s == "+"))
  | .enc b =>
    match st.2 with
    | none =>
      ({ enc_hidden := getAttr b .enc_hidden,
         enc_outputs := getAttr b .enc_outputs }, none)
    | some isAdd =>
      ({ enc_hidden := tryCombine isAdd st.1.enc_hidden (getAttr b .enc_hidden),
         enc_outputs := tryCombine isAdd st.1.enc_outputs (getAttr b .enc_outputs) },
       none)

/-- The whole arithmetic loop over the representation list. -/
def arithReduce (terms : List RTerm) : Buffer :=
  (terms.foldl foldStep ({ enc_hidden := none, enc_outputs := none }, none)).1

/-! ### `_encode_reduce_expressions` (source lines 197-231)

For each expression the encodings of its terms are combined field-by-field
over the keys of the *first* bag.  No operator list is consumed: the code
always reads `encodings[0]`, `encodings[1]`, `encodings[2]` and computes
`first - second + third`.  In the tuple branch the second component reads
component `[0]` of the second bag (source line 218). -/

/-- Component `[0]` of a tuple value.  Indexing a non-tuple tensor would
produce a sub-tensor of a different rank, which this 1-D model cannot
represent; it is modelled as a failure (the claims never exercise it). -/
def comp0 : TVal → Except RErr TVec
  | .pair a _ => .ok a
  | .single _ => .error .opErr

/-- Component `[1]` of a tuple value (same caveat as `comp0`). -/
def comp1 : TVal → Except RErr TVec
  | .pair _ b => .ok b
  | .single _ => .error .opErr

/-- A value that must be a single tensor for `-`/`+` to apply. -/
def asSingle : TVal → Except RErr TVec
  | .single v => .ok v
  | .pair _ _ => .error .opErr

/-- The loop body of `_encode_reduce_expressions` over the key list of the
first bag, building the `results` dictionary in key order.  Sub-expression
evaluation order follows python: for `x - y + z` the subtraction happens
before `z` is even looked up. -/
def reduceKeys (e0 : EncBag) (encodings : List EncBag) :
    List BagKey → Except RErr EncBag
  | [] => .ok []
  | f :: rest => do
    let v0 ← attrE e0 f
    let val ← (match v0 with
      | .pair a0 b0 => do
        let e1 ← idxE encodings 1
        let v1 ← attrE e1 f
        let x0 ← comp0 v1
        let s ← vSub a0 x0
        let e2 ← idxE encodings 2
        let v2 ← attrE e2 f
        let y0 ← comp0 v2
        let a ← vAdd s y0
        let e1b ← idxE encodings 1
        let v1b ← attrE e1b f
        let xb ← comp0 v1b
        let sb ← vSub b0 xb
        let e2b ← idxE encodings 2
        let v2b ← attrE e2b f
        let y1 ← comp1 v2b
        let b ← vAdd sb y1
        Except.ok (TVal.pair a b)
      | .single u0 => do
        let e1 ← idxE encodings 1
        let v1 ← attrE e1 f
        let u1 ← asSingle v1
        let s ← vSub u0 u1
        let e2 ← idxE encodings 2
        let v2 ← attrE e2 f
        let u2 ← asSingle v2
        let u ← vAdd s u2
        Except.ok (TVal.single u))
    let restOut ← reduceKeys e0 encodings rest
    .ok ((f, val) :: restOut)

/-- The per-expression body of `_encode_reduce_expressions`: combine the term
encodings of one expression into one bag. -/
def encodeReduceOne (encodings : List EncBag) : Except RErr EncBag := do
  let e0 ← idxE encodings 0
  reduceKeys e0 encodings (e0.map (fun p => p.1))

/-- `_encode_reduce_expressions` itself: encode every term of every
expression and reduce each expression's encodings. -/
def encodeReduceExpressions (enc : List Int → EncBag)
    (expressions : List (List (List Int))) : Except RErr (List EncBag) :=
  mapME (fun exp => encodeReduceOne (exp.map enc)) expressions

/-! ### `_split_and_pad_expressions` (source lines 158-195)

Each column of the time-major batch is split with `torch.tensor_split` at the
indices holding the operator-marker token (id 0, the out-of-vocabulary id).
`tensor_split` returns *views* of the column; `torch.cat` builds fresh
tensors, so the end-marker append replaces all but the last piece with
copies, while the in-place head assignment `sub_exps[i+1][0] = sos_tok`
writes through any piece that is still a view.  The embedding threads the
original column as explicit state so this aliasing is preserved. -/

/-- Indices (in increasing order, counting from `i`) where a token equals the
operator-marker id 0: `(exp == 0).nonzero(as_tuple=True)[0]`. -/
def zeroIdxsFrom : List Int → Nat → List Nat
  | [], _ => []
  | a :: rest, i =>
    if a = 0 then i :: zeroIdxsFrom rest (i + 1) else zeroIdxsFrom rest (i + 1)

def zeroIdxs (exp : List Int) : List Nat := zeroIdxsFrom exp 0

/-- Piece boundaries of `torch.tensor_split(exp, idxs)`: the pieces are
`exp[0:i0]`, `exp[i0:i1]`, ..., `exp[ik:len]`. -/
def splitBounds (len : Nat) : Nat → List Nat → List (Nat × Nat)
  | start, [] => [(start, len)]
  | start, i :: is => (start, i) :: splitBounds len i is

/-- A sub-expression tensor: still a view into the column, or a fresh copy
made by `torch.cat`. -/
inductive Piece
  | view (s e : Nat)
  | copy (l : List Int)
deriving DecidableEq

/-- The sliceL `orig[s:e]`. -/
def sliceL (orig : List Int) (s e : Nat) : List Int := (orig.drop s).take (e - s)

/-- The current contents of a piece. -/
def readPiece (orig : List Int) : Piece → List Int
  | .view s e => sliceL orig s e
  | .copy l => l

/-- `piece[i]`, raising `IndexError` when out of range. -/
def pieceGet (orig : List Int) (p : Piece) (i : Nat) : Except RErr Int :=
  match (readPiece orig p).get? i with
  | some x => .ok x
  | none => .error .indexErr

/-- `piece[0] = tok`: writing through a view mutates the original column;
writing to a copy only changes the copy.  An empty piece raises. -/
def setHead (orig : List Int) (p : Piece) (tok : Int) :
    Except RErr (List Int × Piece) :=
  match p with
  | .view s e =>
    if s < e ∧ s < orig.length then .ok (orig.set s tok, .view s e)
    else .error .indexErr
  | .copy l =>
    match l with
    | [] => .error .indexErr
    | _ :: t => .ok (orig, .copy (tok :: t))

/-- The end-marker append loop `for i in range(len(sub_exps[0:-1]))`: every
piece but the last is replaced by a fresh `torch.cat` copy carrying an
appended end marker; the last piece is left alone (and stays a view). -/
def catStage (orig : List Int) (eos : Int) : List Piece → List Piece
  | [] => []
  | [last] => [last]
  | p :: rest => .copy (readPiece orig p ++ [eos]) :: catStage orig eos rest

/-- The head-rewrite loop `for i in range(len(sub_exps[1:]))` applied to the
tail pieces in order, threading the original column through the in-place
writes. -/
def rewriteHeads (tok : Int) : List Int → List Piece →
    Except RErr (List Int × List Piece)
  | orig, [] => .ok (orig, [])
  | orig, p :: rest => do
    let (orig1, p1) ← setHead orig p tok
    let (orig2, rest1) ← rewriteHeads tok orig1 rest
    .ok (orig2, p1 :: rest1)

/-- The per-column body of `_split_and_pad_expressions`.  Returns the list of
padded sub-expressions (as read after all mutation) together with the final
contents of the caller's column. -/
def splitAndPadOne (exp : List Int) : Except RErr (List (List Int) × List Int) := do
  let pieces := (splitBounds exp.length 0 (zeroIdxs exp)).map
    (fun pr => Piece.view pr.1 pr.2)
  let first ← headE pieces
  let sos ← pieceGet exp first 0
  let lastP ← (match pieces.getLast? with
    | some p => Except.ok p
    | none => Except.error RErr.indexErr)
  let eos ← (match (readPiece exp lastP).getLast? with
    | some x => Except.ok x
    | none => Except.error RErr.indexErr)
  let pieces2 := catStage exp eos pieces
  let (orig1, tail1) ← rewriteHeads sos exp (pieces2.drop 1)
  let pieces3 := pieces2.take 1 ++ tail1
  .ok (pieces3.map (readPiece orig1), orig1)

/-- `_split_and_pad_expressions` over the whole batch: the batch tensor is
modelled directly as the list of its columns (the `permute(1, 0)` rows). -/
def splitAndPadExpressions (source : List (List Int)) :
    Except RErr (List (List (List Int))) :=
  mapME (fun exp => (splitAndPadOne exp).map Prod.fst) source

/-! ### `forward_expression` (source lines 345-394)

The expression list mixes operator strings with sub-expression objects that
carry `source` and `annotation` (here `tag`) tensors.  Each sub-expression is
fully encoded, the arithmetic loop reduces the encodings, and a decoder input
bag is assembled from the first sub-expression's tensors plus whichever
buffer fields are not `None`.  The decoder call itself is the collaborator
boundary, so the function returns the assembled decoder-input bag. -/

/-- One element of `forward_expression`'s input list. -/
inductive ExprTerm
  | opStr (s : String)
  | sub (source : List Int) (tag : List Int)

/-- The sub-expression sources collected into `sources` during the encoding
loop (only non-string terms contribute). -/
def subSources (expressions : List ExprTerm) : List (List Int) :=
  expressions.filterMap (fun t => match t with
    | .sub s _ => some s
    | .opStr _ => none)

/-- `expressions[0].annotation`: raises `IndexError` on an empty list and
`AttributeError` when the first element is an operator string. -/
def firstTag (expressions : List ExprTerm) : Except RErr (List Int) :=
  match expressions with
  | [] => .error .indexErr
  | .opStr _ :: _ => .error .attrErr
  | .sub _ tg :: _ => .ok tg

/-- Attach the non-`None` buffer fields to a bag, in the buffer's key order
(`enc_hidden` first, then `enc_outputs`). -/
def attachBuffer (b : EncBag) (buf : Buffer) : EncBag :=
  let b1 := match buf.enc_hidden with
    | some v => setAttr b .enc_hidden v
    | none => b
  match buf.enc_outputs with
  | some v => setAttr b1 .enc_outputs v
  | none => b1

/-- `forward_expression`, up to the decoder boundary: encode every
sub-expression in full, run the arithmetic loop, and build `dec_inputs`. -/
def forwardExprDecInput (enc : List Int → EncBag)
    (expressions : List ExprTerm) : Except RErr EncBag := do
  let reps := expressions.map (fun t => match t with
    | .opStr s => RTerm.opStr s
    | .sub src _ => RTerm.enc (enc src))
  let buf := arithReduce reps
  let s0 ← headE (subSources expressions)
  let tg ← firstTag expressions
  let base : EncBag :=
    [(BagKey.source, TVal.single s0), (BagKey.transform, TVal.single tg)]
  .ok (attachBuffer base buf)

/-! ### `forward_expression_eos` (source lines 62-144)

Same arithmetic loop, but each sub-expression is encoded on `source[0:-1]`
(its end marker excluded); afterwards the shared end-marker token of the
first sub-expression is encoded once more, seeded with the reduced hidden
state, its output is concatenated after the reduced outputs, and two shape
assertions are checked before the decoder input is assembled. -/

/-- `torch.cat((a, b))` on buffer values: concatenation along the leading
dimension of two single tensors; a `None` or tuple operand raises. -/
def vcatT : TVal → TVal → Except RErr TVal
  | .single a, .single b => .ok (.single (a ++ b))
  | _, _ => .error .opErr

/-- Source lines 115-133 of `forward_expression_eos`: extract the shared
end-marker token of the first sub-expression, encode it seeded with the
reduced hidden state, concatenate its output after the reduced outputs,
replace the hidden state, and check the two shape assertions.  Returns the
final `(enc_hidden, enc_outputs)` pair of the buffer. -/
def eosCompose (encH : List Int → Option TVal → EncBag)
    (firstSrc : List Int) (buf : Buffer) : Except RErr (TVal × TVal) := do
  -- eos_token = expressions[0].source[-1, :]
  let eosTok ← (match firstSrc.getLast? with
    | some x => Except.ok x
    | none => Except.error RErr.indexErr)
  let testOut := encH [eosTok] buf.enc_hidden
  -- new_outputs = torch.cat((buffer["enc_outputs"], test_out.enc_outputs))
  let to1 ← attrE testOut .enc_outputs
  let bo ← (match buf.enc_outputs with
    | some v => Except.ok v
    | none => Except.error RErr.opErr)
  let newOut ← vcatT bo to1
  let th ← attrE testOut .enc_hidden
  -- assert buffer["enc_outputs"].shape[0:2] == expressions[0].source.shape
  let _ ← (match newOut with
    | .single o =>
      if o.length = firstSrc.length then Except.ok () else Except.error RErr.assertErr
    | .pair _ _ => Except.error RErr.attrErr)
  -- assert buffer["enc_hidden"].shape[0] == 1
  let _ ← (match th with
    | .single h =>
      if h.length = 1 then Except.ok () else Except.error RErr.assertErr
    | .pair _ _ => Except.error RErr.attrErr)
  .ok (th, newOut)

/-- `forward_expression_eos`, up to the decoder boundary. -/
def forwardExprEos (enc : List Int → EncBag)
    (encH : List Int → Option TVal → EncBag)
    (expressions : List ExprTerm) : Except RErr EncBag := do
  let reps := expressions.map (fun t => match t with
    | .opStr s => RTerm.opStr s
    | .sub src _ => RTerm.enc (enc src.dropLast))
  let buf := arithReduce reps
  let firstSrc ← (match expressions with
    | [] => Except.error RErr.indexErr
    | .opStr _ :: _ => Except.error RErr.attrErr
    | .sub src _ :: _ => Except.ok src)
  let pr ← eosCompose encH firstSrc buf
  let s0 ← headE (subSources expressions)
  let tg ← firstTag expressions
  let base : EncBag :=
    [(BagKey.source, TVal.single s0), (BagKey.transform, TVal.single tg)]
  .ok (attachBuffer base { enc_hidden := some pr.1, enc_outputs := some pr.2 })

/-! ### `forward_batch_expr` (source lines 146-343)

The batch's columns are split into padded sub-expressions; a decoder input is
built from the stacked first sub-expressions and the batch annotation; then
one of three offset policies runs.  Batch concatenation along the secondary
dimension (`torch.hstack`) does not affect any claim and is modelled as
component concatenation. -/

/-- `torch.stack([e[0] for e in expressions])`: raises when the list is empty
or the first sub-expressions do not share one shape. -/
def stackFirsts (expressions : List (List (List Int))) :
    Except RErr (List (List Int)) := do
  let firsts ← mapME headE expressions
  match firsts with
  | [] => .error .opErr
  | f :: rest =>
    if rest.all (fun l => l.length = f.length) then .ok (f :: rest)
    else .error .opErr

/-- `torch.hstack` across the per-example values of one field (tuple fields
per component); a mixed tuple / non-tuple list raises. -/
def hstackTV : List TVal → Except RErr TVal
  | [] => .error .opErr
  | v :: rest =>
    rest.foldlM (fun acc x =>
      match acc, x with
      | .single a, .single b => .ok (TVal.single (a ++ b))
      | .pair a b, .pair c d => .ok (TVal.pair (a ++ c) (b ++ d))
      | _, _ => .error .opErr) v

/-- The collapse loop over the keys of the first reduced bag: `hstack` each
field across the per-example bags (`getattr` raising on an absent field). -/
def collapseKeys (bags : List EncBag) : List BagKey → Except RErr EncBag
  | [] => .ok []
  | f :: rest => do
    let vs ← mapME (fun b => attrE b f) bags
    let v ← hstackTV vs
    let r ← collapseKeys bags rest
    .ok ((f, v) :: r)

/-- Collapse the per-example reduced bags into the single decoder-input
field set. -/
def collapseBags (bags : List EncBag) : Except RErr EncBag := do
  let b0 ← idxE bags 0
  collapseKeys bags (b0.map (fun p => p.1))

/-- `term[0:offset]` with `offset = -k`: everything but the last `k` steps. -/
def cutTerm (k : Nat) (t : List Int) : List Int := t.take (t.length - k)

/-- `term[offset:]` with `offset = -k`: the last `k` steps. -/
def tailTerm (k : Nat) (t : List Int) : List Int := t.drop (t.length - k)

/-- The offset < 0 path (source lines 247-281), producing the per-example
buffers: encode each term only on its truncated prefix, reduce those partial
encodings, resume encoding on the first sub-expression's remaining suffix
seeded with the reduced hidden state, and pair the resumed hidden state with
the reduced partial outputs concatenated before the resumed outputs. -/
def negBuffers (enc : List Int → EncBag) (encH : List Int → Option TVal → EncBag)
    (expressions : List (List (List Int))) (k : Nat) :
    Except RErr (List Buffer) := do
  let parts ← mapME (fun exp => encodeReduceOne ((exp.map (cutTerm k)).map enc))
    expressions
  let remaining ← mapME (fun exp => (headE exp).map (tailTerm k)) expressions
  let fulls ← mapME (fun pr =>
      (attrE pr.2 .enc_hidden).map (fun h => encH pr.1 (some h)))
    (List.zip remaining parts)
  mapME (fun pf => do
      let h ← attrE pf.2 .enc_hidden
      let po ← attrE pf.1 .enc_outputs
      let fo ← attrE pf.2 .enc_outputs
      (vcatT po fo).map (fun co =>
        ({ enc_hidden := some h, enc_outputs := some co } : Buffer)))
    (List.zip parts fulls)

/-- `ModelIO(buffer)` for the offset < 0 buffers: key order `enc_hidden`,
`enc_outputs`. -/
def bufferToBag (b : Buffer) : EncBag :=
  (match b.enc_hidden with
    | some v => [(BagKey.enc_hidden, v)]
    | none => []) ++
  (match b.enc_outputs with
    | some v => [(BagKey.enc_outputs, v)]
    | none => [])

/-- The decoder input of `forward_batch_expr`: the stacked first
sub-expressions, the batch annotation, and the reduced encoding fields that
the collapse loop attaches. -/
structure DecInput where
  source : List (List Int)
  transform : List Int
  fields : EncBag
deriving DecidableEq

/-- `forward_batch_expr`, up to the decoder boundary.  `offset` selects the
composition policy; `offset > 0` ("reduce during decoding") reaches
`raise NotImplementedError` after the sub-expressions have been encoded and
reduced. -/
def forwardBatchExpr (enc : List Int → EncBag)
    (encH : List Int → Option TVal → EncBag)
    (source : List (List Int)) (tg : List Int) (offset : Int) :
    Except RErr DecInput := do
  let expressions ← splitAndPadExpressions source
  let firsts ← stackFirsts expressions
  if offset < 0 then do
    let bufs ← negBuffers enc encH expressions (-offset).toNat
    let flds ← collapseBags (bufs.map bufferToBag)
    .ok { source := firsts, transform := tg, fields := flds }
  else do
    let reduced ← encodeReduceExpressions enc expressions
    if offset = 0 then do
      let flds ← collapseBags reduced
      .ok { source := firsts, transform := tg, fields := flds }
    else
      .error .notImpl

/-! ### Spec-side comparison definitions

The spec (§4.2) describes the reducer as a left-to-right fold over the terms
by the supplied operators, and (§4.3) describes the offset < 0 policy per
example.  These two definitions follow the spec's words and are compared
against the source-derived definitions above. -/

/-- Modelled from the spec (§4.2): "start with term 1's value, then for each
subsequent term add or subtract it per the corresponding operator"; a missing
operand or a failing operation yields no value. -/
def specReducerFold (first : Option TVal) (rest : List (String × Option TVal)) :
    Option TVal :=
  rest.foldl (fun acc p =>
    match acc, p.2 with
    | some a, some v => (applyOpT (p.1 == "+") a v).toOption
    | _, _ => none) first

/-- A well-formed reducer input: a first bag followed by alternating
(operator, bag) pairs, as handed to the arithmetic loop. -/
def interleave (b0 : EncBag) (rest : List (String × EncBag)) : List RTerm :=
  RTerm.enc b0 ::
    (rest.map (fun p => [RTerm.opStr p.1, RTerm.enc p.2])).flatten

/-- Modelled from the spec (§4.3, offset < 0): "each sub-expression is first
encoded only up to `offset` steps before its end; the reducer combines these
partial encodings; encoding then resumes on the remaining suffix of only the
first sub-expression, seeded with the reduced hidden state, and its per-step
outputs are concatenated after the reduced partial outputs". -/
def negBufferSpec (enc : List Int → EncBag) (encH : List Int → Option TVal → EncBag)
    (k : Nat) (exp : List (List Int)) : Except RErr Buffer := do
  let part ← encodeReduceOne ((exp.map (cutTerm k)).map enc)
  let t0 ← headE exp
  let h ← attrE part .enc_hidden
  let full := encH (tailTerm k t0) (some h)
  let fh ← attrE full .enc_hidden
  let po ← attrE part .enc_outputs
  let fo ← attrE full .enc_outputs
  (vcatT po fo).map (fun co =>
    ({ enc_hidden := some fh, enc_outputs := some co } : Buffer))

/-! ### Concrete collaborator instances

Concrete encoder functions used by witnesses and counterexamples; these
stand for particular external encoder behaviours at the collaborator
boundary. -/

/-- A concrete encoder: one hidden layer summarising the length, a one-step
output summing the tokens. -/
def encA : List Int → EncBag := fun src =>
  [(BagKey.enc_hidden, TVal.single [Int.ofNat src.length]),
   (BagKey.enc_outputs, TVal.single [src.foldl (fun a x => a + x) 0])]

/-- `forward_with_hidden` counterpart of `encA` (the supplied hidden state
does not change this stub's observable output). -/
def encHA : List Int → Option TVal → EncBag := fun src _ => encA src

/-- A concrete encoder whose hidden state for the source `[10]` has two
layers but three layers otherwise, so that hidden states of
non-broadcastable shapes (neither leading size is 1) meet in the arithmetic
loop. -/
def encB : List Int → EncBag := fun src =>
  if src = [10] then
    [(BagKey.enc_hidden, TVal.single [1, 2]),
     (BagKey.enc_outputs, TVal.single [5])]
  else
    [(BagKey.enc_hidden, TVal.single [3, 4, 5]),
     (BagKey.enc_outputs, TVal.single [6])]

/-- `forward_with_hidden` counterpart used with `encB`. -/
def encHB : List Int → Option TVal → EncBag := fun _ _ =>
  [(BagKey.enc_hidden, TVal.single [9]),
   (BagKey.enc_outputs, TVal.single [7])]

/-! ### Segment decompositions of a column

To quantify over all well-formed columns, a column is presented as a start
segment followed by operator-marked segments: `seg0 ++ withOps segs`, where
each element of `segs` contributes an operator marker (token 0) and its
operand tokens.  `allOps` lists the resulting operator-marker positions and
`segBounds` the `tensor_split` boundaries after the first piece. -/

/-- `(segs.map (0 :: ·)).join`: the tail of a column after the first
sub-expression. -/
def withOps (segs : List (List Int)) : List Int :=
  (segs.map (fun s => (0 : Int) :: s)).flatten

/-- Positions of the operator markers of `withOps segs` when it starts at
position `p`. -/
def allOps : Nat → List (List Int) → List Nat
  | _, [] => []
  | p, s :: ss => p :: allOps (p + 1 + s.length) ss

/-- The `tensor_split` boundaries of the pieces after the first one, when the
piece starting at operator position `p` covers segment `s`. -/
def segBounds : Nat → List (List Int) → List (Nat × Nat)
  | _, [] => []
  | p, s :: ss => (p, p + 1 + s.length) :: segBounds (p + 1 + s.length) ss

/-- The effect of the head-rewrite loop on a concatenated copy. -/
def copyHead (tok : Int) : Piece → Piece
  | .copy (_ :: t) => .copy (tok :: t)
  | p => p

/-- A concrete encoder with genuinely per-step outputs: one output entry per
source token, a one-layer hidden state recording the length. -/
def encC : List Int → EncBag := fun src =>
  [(BagKey.enc_hidden, TVal.single [Int.ofNat src.length]),
   (BagKey.enc_outputs, TVal.single (src.map (fun x => x + 1)))]

/-- `forward_with_hidden` counterpart of `encC`. -/
def encHC : List Int → Option TVal → EncBag := fun src _ => encC src

/-! ## Theorems -/

theorem ok_bind {α β : Type} (a : α) (f : α → Except RErr β) :
    (Except.ok a : Except RErr α) >>= f = f a := rfl

theorem error_bind {α β : Type} (e : RErr) (f : α → Except RErr β) :
    (Except.error e : Except RErr α) >>= f = Except.error e := rfl

theorem bind_ok_elim {α β : Type} {e : Except RErr α} {g : α → Except RErr β} {c : β}
    (h : e >>= g = .ok c) : ∃ a, e = .ok a ∧ g a = .ok c := by
  cases e with
  | error err => rw [error_bind] at h; cases h
  | ok a => exact ⟨a, rfl, by rwa [ok_bind] at h⟩

theorem bind_ne_ok {α β : Type} (e : Except RErr α) (g : α → Except RErr β) (d : β)
    (h : ∀ a, g a ≠ .ok d) : e >>= g ≠ .ok d := by
  intro hc
  obtain ⟨a, _, ha⟩ := bind_ok_elim hc
  exact h a ha

theorem mapME_cons_ok {α β : Type} (f : α → Except RErr β) (x : α) (xs : List α)
    (ys : List β) :
    mapME f (x :: xs) = .ok ys ↔
      ∃ y ys1, f x = .ok y ∧ mapME f xs = .ok ys1 ∧ ys = y :: ys1 := by
  constructor
  · intro h
    unfold mapME at h
    obtain ⟨y, hy, h⟩ := bind_ok_elim h
    obtain ⟨ys1, hys1, h⟩ := bind_ok_elim h
    cases h
    exact ⟨y, ys1, hy, hys1, rfl⟩
  · rintro ⟨y, ys1, h1, h2, rfl⟩
    unfold mapME
    rw [h1, ok_bind, h2, ok_bind]

/-- `reduceKeys` reads only the first three encodings, so any further
encodings are ignored. -/
theorem reduceKeys_first3 (b e0 e1 e2 : EncBag) (rest : List EncBag)
    (ks : List BagKey) :
    reduceKeys b (e0 :: e1 :: e2 :: rest) ks = reduceKeys b [e0, e1, e2] ks := by
  induction ks with
  | nil => rfl
  | cons f fs ih =>
    have h1 : idxE (e0 :: e1 :: e2 :: rest) 1 = idxE [e0, e1, e2] 1 := rfl
    have h2 : idxE (e0 :: e1 :: e2 :: rest) 2 = idxE [e0, e1, e2] 2 := rfl
    simp only [reduceKeys, h1, h2, ih]

/-- C2 (code bug): with 2-tuple hidden-state fields, the second tuple
component produced by `_encode_reduce_expressions` combines component 1 of
the first and third bags with component 0 of the second bag (source line
218 reads `[0]`): on the bags `(10, 20)`, `(1, 2)`, `(100, 200)` the code
yields `20 - 1 + 200 = 219`, while position-wise combination per the claim
would give `20 - 2 + 200 = 218`. -/
theorem claim_C2 :
    encodeReduceOne
      [[(BagKey.enc_hidden, TVal.pair [10] [20])],
       [(BagKey.enc_hidden, TVal.pair [1] [2])],
       [(BagKey.enc_hidden, TVal.pair [100] [200])]]
      = .ok [(BagKey.enc_hidden, TVal.pair [109] [219])] ∧
    (20 : Int) - 2 + 200 = 218 ∧ (219 : Int) ≠ 218 := by decide

/-- C9 (counterexample): a batch whose single example holds three operator
markers (hence four sub-expressions) is not rejected: `forward_batch_expr`
returns an ordinary composite, silently ignoring the fourth sub-expression's
encoding. -/
theorem claim_C9_cex :
    forwardBatchExpr encA encHA [[1, 3, 0, 4, 0, 5, 0, 6, 2]] [7] 0
      = .ok { source := [[1, 3, 2]], transform := [7],
              fields := [(BagKey.enc_hidden, TVal.single [3]),
                         (BagKey.enc_outputs, TVal.single [7])] } := by decide

/-- C9 (amended): `forward_batch_expr` performs no operator-count
verification; its reduction depends only on the first three encodings of
each example, so sub-expressions beyond the third are silently ignored. -/
theorem claim_C9 (e0 e1 e2 : EncBag) (rest : List EncBag) :
    encodeReduceOne (e0 :: e1 :: e2 :: rest) = encodeReduceOne [e0, e1, e2] := by
  unfold encodeReduceOne
  have h0 : idxE (e0 :: e1 :: e2 :: rest) 0 = Except.ok e0 := rfl
  have h0b : idxE [e0, e1, e2] 0 = Except.ok e0 := rfl
  rw [h0, h0b, ok_bind, ok_bind]
  exact reduceKeys_first3 e0 e0 e1 e2 rest _

/-- C3 (counterexample): on a single-term list `_encode_reduce_expressions`
does not return the term's encoding; it raises an index error while looking
up the hard-coded second encoding. -/
theorem claim_C3_cex :
    encodeReduceOne [[(BagKey.enc_hidden, TVal.single [5])]]
      = .error .indexErr := by decide

/-- C3 (amended): a single term with zero operators reduces to its own
encoding bit-identically in the `forward_expression` /
`forward_expression_eos` arithmetic loop, while the batch path's
`_encode_reduce_expressions` requires exactly three encodings and fails with
an index error on a single-term list whose encoding has any field. -/
theorem claim_C3 :
    (∀ b : EncBag, arithReduce [RTerm.enc b] =
      { enc_hidden := getAttr b .enc_hidden,
        enc_outputs := getAttr b .enc_outputs }) ∧
    (∀ e0 : EncBag, e0 ≠ [] → encodeReduceOne [e0] = .error .indexErr) := by
  constructor
  · intro b; rfl
  · intro e0 hne
    match e0, hne with
    | (f, v) :: rest, _ =>
      have hattr : attrE ((f, v) :: rest) f = .ok v := by
        simp [attrE, getAttr, List.find?]
      cases v with
      | single u =>
        have h0 : idxE [(f, TVal.single u) :: rest] 0
            = Except.ok ((f, TVal.single u) :: rest) := rfl
        have h1 : idxE [(f, TVal.single u) :: rest] 1
            = Except.error RErr.indexErr := rfl
        simp only [encodeReduceOne, h0, ok_bind, List.map, reduceKeys, hattr, h1,
          error_bind]
      | pair a b =>
        have h0 : idxE [(f, TVal.pair a b) :: rest] 0
            = Except.ok ((f, TVal.pair a b) :: rest) := rfl
        have h1 : idxE [(f, TVal.pair a b) :: rest] 1
            = Except.error RErr.indexErr := rfl
        simp only [encodeReduceOne, h0, ok_bind, List.map, reduceKeys, hattr, h1,
          error_bind]

/-- C3 (witness): the amended claim at a concrete one-field bag. -/
theorem claim_C3_wit :
    arithReduce [RTerm.enc [(BagKey.enc_hidden, TVal.single [5])]] =
      { enc_hidden := some (TVal.single [5]), enc_outputs := none } ∧
    encodeReduceOne [[(BagKey.enc_hidden, TVal.single [5])]]
      = .error .indexErr :=
  ⟨(claim_C3.1 [(BagKey.enc_hidden, TVal.single [5])]).trans (by decide),
   claim_C3.2 [(BagKey.enc_hidden, TVal.single [5])] (by decide)⟩

/-- A bag field is absent exactly when no entry carries its key. -/
theorem getAttr_none_iff {b : EncBag} {f : BagKey} :
    getAttr b f = none ↔ ∀ p ∈ b, p.1 ≠ f := by
  constructor
  · intro h p hp hpf
    unfold getAttr at h
    cases hfind : b.find? (fun q => q.1 == f) with
    | none =>
      rw [List.find?_eq_none] at hfind
      exact hfind p hp (by simp [hpf])
    | some q => rw [hfind] at h; cases h
  · intro hall
    unfold getAttr
    have hfind : b.find? (fun q => q.1 == f) = none := by
      rw [List.find?_eq_none]
      intro p hp
      simp [hall p hp]
    rw [hfind]

/-- A successful `reduceKeys` run produces exactly the requested keys, in
order. -/
theorem reduceKeys_ok_keys {b : EncBag} {encs : List EncBag} :
    ∀ {ks : List BagKey} {out : EncBag},
      reduceKeys b encs ks = .ok out → out.map Prod.fst = ks := by
  intro ks
  induction ks with
  | nil =>
    intro out h
    injection h with h
    rw [← h]
    rfl
  | cons f fs ih =>
    intro out h
    unfold reduceKeys at h
    obtain ⟨v0, hv0, h⟩ := bind_ok_elim h
    obtain ⟨val, hval, h⟩ := bind_ok_elim h
    obtain ⟨restOut, hrest, h⟩ := bind_ok_elim h
    injection h with h
    rw [← h]
    simp [ih hrest]

/-- C8 (counterexample): a field (`enc_outputs`) present in the first bag but
absent from the second makes `_encode_reduce_expressions` raise an attribute
error instead of omitting the field — the claim's "in every reduction path"
fails on this path. -/
theorem claim_C8_cex :
    encodeReduceOne
      [[(BagKey.enc_hidden, TVal.single [1]), (BagKey.enc_outputs, TVal.single [5])],
       [(BagKey.enc_hidden, TVal.single [2])],
       [(BagKey.enc_hidden, TVal.single [3]), (BagKey.enc_outputs, TVal.single [6])]]
      = .error .attrErr := by decide

/-- C8 (amended): a field absent from a participating bag is omitted without
failure in the `forward_expression` / `forward_expression_eos` arithmetic
loop (both when overwriting and when combining); in
`_encode_reduce_expressions` a field absent from the *first* bag is omitted
from the result (fields present in the first bag must be present in the
later bags). -/
theorem claim_C8 :
    (∀ (st : Buffer × Option Bool) (b : EncBag),
        getAttr b .enc_outputs = none →
        ((foldStep st (RTerm.enc b)).1).enc_outputs = none) ∧
    (∀ (encodings : List EncBag) (e0 r : EncBag) (f : BagKey),
        idxE encodings 0 = .ok e0 →
        encodeReduceOne encodings = .ok r →
        getAttr e0 f = none →
        getAttr r f = none) := by
  constructor
  · intro st b hb
    match st with
    | (buf, none) => simp [foldStep, hb]
    | (buf, some isAdd) =>
      cases hc : buf.enc_outputs with
      | none => simp [foldStep, hb, tryCombine, hc]
      | some c => simp [foldStep, hb, tryCombine, hc]
  · intro encodings e0 r f h0 hred hnone
    unfold encodeReduceOne at hred
    rw [h0, ok_bind] at hred
    have hkeys := reduceKeys_ok_keys hred
    rw [getAttr_none_iff]
    intro p hp hpf
    have hfm : f ∈ e0.map Prod.fst := by
      rw [← hkeys]
      exact hpf ▸ List.mem_map_of_mem Prod.fst hp
    obtain ⟨q, hq, hqf⟩ := List.mem_map.mp hfm
    exact (getAttr_none_iff.mp hnone) q hq hqf

/-- C8 (witness): the amended claim at concrete bags. -/
theorem claim_C8_wit :
    ((foldStep ({ enc_hidden := none, enc_outputs := none }, none)
        (RTerm.enc [(BagKey.enc_hidden, TVal.single [1])])).1).enc_outputs = none ∧
    getAttr [(BagKey.enc_hidden, TVal.single [2])] BagKey.enc_outputs = none :=
  ⟨claim_C8.1 ({ enc_hidden := none, enc_outputs := none }, none)
      [(BagKey.enc_hidden, TVal.single [1])] (by decide),
   (claim_C8.2 [[(BagKey.enc_hidden, TVal.single [1])],
                [(BagKey.enc_hidden, TVal.single [2])],
                [(BagKey.enc_hidden, TVal.single [3])]]
      [(BagKey.enc_hidden, TVal.single [1])]
      [(BagKey.enc_hidden, TVal.single [2])]
      BagKey.enc_outputs (by decide) (by decide) (by decide))⟩

/-- C1 (counterexample): with three bags and the operator list `[+, +]`,
`_encode_reduce_expressions` does not compute the claimed left-to-right fold
(it has no operator input and always computes `first - second + third`):
the fold gives `10 + 1 + 100 = 111` but the code gives `10 - 1 + 100 = 109`. -/
theorem claim_C1_cex :
    specReducerFold (some (TVal.single [10]))
        [("+", some (TVal.single [1])), ("+", some (TVal.single [100]))]
      = some (TVal.single [111]) ∧
    encodeReduceOne
        [[(BagKey.enc_hidden, TVal.single [10])],
         [(BagKey.enc_hidden, TVal.single [1])],
         [(BagKey.enc_hidden, TVal.single [100])]]
      = .ok [(BagKey.enc_hidden, TVal.single [109])] ∧
    (TVal.single [109] : TVal) ≠ TVal.single [111] := by decide

/-- C10 (counterexample): after splitting the column `[1,3,0,4,0,5,2]` (two
operator markers, at positions 2 and 4), the caller's column is
`[1,3,0,4,1,5,2]`: position 2 still holds the operator marker 0, not the
start marker 1 — the first operator position was rewritten only on a
`torch.cat` copy, so the claim that every operator position is overwritten
fails. -/
theorem claim_C10_cex :
    splitAndPadOne [1, 3, 0, 4, 0, 5, 2]
      = .ok ([[1, 3, 2], [1, 4, 2], [1, 5, 2]], [1, 3, 0, 4, 1, 5, 2]) ∧
    [1, 3, 0, 4, 1, 5, 2].get? 2 = some (0 : Int) ∧ (0 : Int) ≠ 1 := by decide

/-- C7 (counterexample): a non-broadcastable hidden-state shape mismatch
arising during the arithmetic loop (a 2-layer against a 3-layer hidden
state: `vAdd [1,2] [3,4,5]` raises, since neither leading size is 1 so
torch broadcasting does not apply) is swallowed by the bare `try`/`except`
— the buffer's hidden field silently becomes absent — and
`forward_expression_eos` then *succeeds*, returning an ordinary composite
bag instead of failing with an assertion. -/
theorem claim_C7_cex :
    (arithReduce [RTerm.enc (encB [10]), RTerm.opStr "+",
        RTerm.enc (encB [20])]).enc_hidden = none ∧
    vAdd [1, 2] [3, 4, 5] = .error .opErr ∧
    forwardExprEos encB encHB
        [ExprTerm.sub [10, 2] [7], ExprTerm.opStr "+", ExprTerm.sub [20, 2] [7]]
      = .ok [(BagKey.source, TVal.single [10, 2]),
             (BagKey.transform, TVal.single [7]),
             (BagKey.enc_hidden, TVal.single [9]),
             (BagKey.enc_outputs, TVal.single [11, 7])] := by decide

/-- C4: for offset > 0 (the "reduce during decoding" policy),
`forward_batch_expr` never returns a composite, and on any batch the earlier
stages accept it fails with exactly the not-implemented signal. -/
theorem claim_C4 (enc : List Int → EncBag) (encH : List Int → Option TVal → EncBag)
    (src : List (List Int)) (tg : List Int) (offset : Int) (hoff : 0 < offset) :
    (∀ d, forwardBatchExpr enc encH src tg offset ≠ .ok d) ∧
    (∀ exps fs red,
      splitAndPadExpressions src = .ok exps →
      stackFirsts exps = .ok fs →
      encodeReduceExpressions enc exps = .ok red →
      forwardBatchExpr enc encH src tg offset = .error .notImpl) := by
  have hneg : ¬ offset < 0 := by omega
  have hz : ¬ offset = 0 := by omega
  constructor
  · intro d
    unfold forwardBatchExpr
    apply bind_ne_ok
    intro exps
    apply bind_ne_ok
    intro fs
    rw [if_neg hneg]
    apply bind_ne_ok
    intro red
    rw [if_neg hz]
    simp
  · intro exps fs red h1 h2 h3
    unfold forwardBatchExpr
    rw [h1, ok_bind, h2, ok_bind, if_neg hneg, h3, ok_bind, if_neg hz]

/-- C4 (witness): a concrete batch with the expected two operators reaches
the not-implemented failure. -/
theorem claim_C4_wit :
    forwardBatchExpr encA encHA [[1, 3, 0, 4, 0, 5, 2]] [7] 1
      = .error .notImpl :=
  (claim_C4 encA encHA [[1, 3, 0, 4, 0, 5, 2]] [7] 1 (by decide)).2
    [[[1, 3, 2], [1, 4, 2], [1, 5, 2]]] [[1, 3, 2]]
    [[(BagKey.enc_hidden, TVal.single [3]), (BagKey.enc_outputs, TVal.single [7])]]
    (by decide) (by decide) (by decide)

theorem specReducerFold_cons (first : Option TVal) (s : String) (v : Option TVal)
    (rest : List (String × Option TVal)) :
    specReducerFold first ((s, v) :: rest)
      = specReducerFold (tryCombine (s == "+") first v) rest := rfl

/-- The arithmetic loop on the alternating tail agrees with the spec's
left-to-right fold, field by field, from any starting buffer. -/
theorem foldTail_spec (rest : List (String × EncBag)) :
    ∀ buf : Buffer,
      (((rest.map (fun p => [RTerm.opStr p.1, RTerm.enc p.2])).flatten).foldl
          foldStep (buf, none)).1 =
        { enc_hidden := specReducerFold buf.enc_hidden
            (rest.map (fun p => (p.1, getAttr p.2 .enc_hidden))),
          enc_outputs := specReducerFold buf.enc_outputs
            (rest.map (fun p => (p.1, getAttr p.2 .enc_outputs))) } := by
  induction rest with
  | nil => intro buf; rfl
  | cons p ps ih =>
    intro buf
    obtain ⟨s, b⟩ := p
    simp only [List.map_cons, List.flatten_cons, List.cons_append, List.nil_append,
      List.foldl_cons]
    have h1 : foldStep (buf, none) (RTerm.opStr s) = (buf, some (s == "+")) := rfl
    have h2 : foldStep (buf, some (s == "+")) (RTerm.enc b) =
        ({ enc_hidden := tryCombine (s == "+") buf.enc_hidden (getAttr b .enc_hidden),
           enc_outputs := tryCombine (s == "+") buf.enc_outputs (getAttr b .enc_outputs) },
         none) := rfl
    rw [h1, h2, ih, specReducerFold_cons, specReducerFold_cons]

/-- `getAttr` skips an entry whose key differs. -/
theorem getAttr_cons_ne {g f : BagKey} (hgf : g ≠ f) (val : TVal) (r : EncBag) :
    getAttr ((g, val) :: r) f = getAttr r f := by
  unfold getAttr
  rw [List.find?]
  have hb : (g == f) = false := by simp [hgf]
  rw [hb]

/-- `getAttr` returns the head entry's value when the key matches. -/
theorem getAttr_cons_self (f : BagKey) (val : TVal) (r : EncBag) :
    getAttr ((f, val) :: r) f = some val := by
  unfold getAttr
  rw [List.find?]
  have hb : (f == f) = true := by simp
  rw [hb]

/-- A present field's key appears in the bag's key list. -/
theorem getAttr_some_mem {b : EncBag} {f : BagKey} {v : TVal}
    (h : getAttr b f = some v) : f ∈ b.map Prod.fst := by
  unfold getAttr at h
  cases hfind : b.find? (fun q => q.1 == f) with
  | none => rw [hfind] at h; cases h
  | some q =>
    have hq := List.find?_some hfind
    have hmem := List.mem_of_find?_eq_some hfind
    have : q.1 = f := by simpa using hq
    exact this ▸ List.mem_map_of_mem Prod.fst hmem

/-- A successful `reduceKeys` run computes, for every requested key whose
values are single tensors in the first three encodings, exactly
`first - second + third`. -/
theorem reduceKeys_ok_single_field {e0 : EncBag} {encs : List EncBag}
    {e1 e2 : EncBag} (he1 : idxE encs 1 = .ok e1) (he2 : idxE encs 2 = .ok e2) :
    ∀ {ks : List BagKey} {out : EncBag} {f : BagKey} {v0 v1 v2 : TVec},
      reduceKeys e0 encs ks = .ok out →
      f ∈ ks →
      getAttr e0 f = some (.single v0) →
      getAttr e1 f = some (.single v1) →
      getAttr e2 f = some (.single v2) →
      ∃ s u, vSub v0 v1 = .ok s ∧ vAdd s v2 = .ok u ∧
        getAttr out f = some (.single u) := by
  intro ks
  induction ks with
  | nil => intro out f v0 v1 v2 _ hf; cases hf
  | cons g gs ih =>
    intro out f v0 v1 v2 hk hf h0 h1 h2
    unfold reduceKeys at hk
    obtain ⟨vg, hvg, hk⟩ := bind_ok_elim hk
    obtain ⟨val, hval, hk⟩ := bind_ok_elim hk
    obtain ⟨restOut, hrest, hk⟩ := bind_ok_elim hk
    injection hk with hk
    subst hk
    by_cases hfg : g = f
    · subst hfg
      have hvg' : vg = TVal.single v0 := by
        have : attrE e0 g = .ok (TVal.single v0) := by
          unfold attrE; rw [h0]
        rw [this] at hvg
        injection hvg with hvg
        exact hvg.symm
      subst hvg'
      have hval2 : (idxE encs 1 >>= fun e1x =>
          attrE e1x g >>= fun v1x =>
          asSingle v1x >>= fun u1 =>
          vSub v0 u1 >>= fun s =>
          idxE encs 2 >>= fun e2x =>
          attrE e2x g >>= fun v2x =>
          asSingle v2x >>= fun u2 =>
          vAdd s u2 >>= fun u =>
          Except.ok (TVal.single u)) = Except.ok val := hval
      rw [he1, ok_bind] at hval2
      have ha1 : attrE e1 g = .ok (TVal.single v1) := by unfold attrE; rw [h1]
      rw [ha1, ok_bind] at hval2
      rw [show asSingle (TVal.single v1) = Except.ok v1 from rfl, ok_bind] at hval2
      obtain ⟨s, hs, hval2⟩ := bind_ok_elim hval2
      rw [he2, ok_bind] at hval2
      have ha2 : attrE e2 g = .ok (TVal.single v2) := by unfold attrE; rw [h2]
      rw [ha2, ok_bind] at hval2
      rw [show asSingle (TVal.single v2) = Except.ok v2 from rfl, ok_bind] at hval2
      obtain ⟨u, hu, hval2⟩ := bind_ok_elim hval2
      injection hval2 with hval2
      exact ⟨s, u, hs, hu, by rw [getAttr_cons_self, ← hval2]⟩
    · have hf' : f ∈ gs := by
        cases hf with
        | head => exact absurd rfl hfg
        | tail _ h => exact h
      obtain ⟨s, u, hs, hu, hout⟩ := ih hrest hf' h0 h1 h2
      exact ⟨s, u, hs, hu, by rw [getAttr_cons_ne hfg, hout]⟩

/-- C1 (amended): in `forward_expression` and `forward_expression_eos` the
composite's `enc_hidden` and `enc_outputs` equal the spec's left-to-right
fold of the terms' corresponding fields under the supplied operators (for
any alternating term/operator list); `forward_batch_expr`'s
`_encode_reduce_expressions` receives no operators and always combines
exactly three encodings as `first - second + third` — the fold for the
fixed operator pattern `[-, +]` — for single-tensor fields. -/
theorem claim_C1 :
    (∀ (b0 : EncBag) (rest : List (String × EncBag)),
        arithReduce (interleave b0 rest) =
          { enc_hidden := specReducerFold (getAttr b0 .enc_hidden)
              (rest.map (fun p => (p.1, getAttr p.2 .enc_hidden))),
            enc_outputs := specReducerFold (getAttr b0 .enc_outputs)
              (rest.map (fun p => (p.1, getAttr p.2 .enc_outputs))) }) ∧
    (∀ (e0 e1 e2 r : EncBag) (f : BagKey) (v0 v1 v2 : TVec),
        encodeReduceOne [e0, e1, e2] = .ok r →
        getAttr e0 f = some (.single v0) →
        getAttr e1 f = some (.single v1) →
        getAttr e2 f = some (.single v2) →
        getAttr r f = specReducerFold (some (.single v0))
          [("-", some (.single v1)), ("+", some (.single v2))]) := by
  constructor
  · intro b0 rest
    unfold arithReduce interleave
    rw [List.foldl_cons]
    have h0 : foldStep ({ enc_hidden := none, enc_outputs := none }, none)
        (RTerm.enc b0) =
        ({ enc_hidden := getAttr b0 .enc_hidden,
           enc_outputs := getAttr b0 .enc_outputs }, none) := rfl
    rw [h0, foldTail_spec]
  · intro e0 e1 e2 r f v0 v1 v2 hred h0 h1 h2
    unfold encodeReduceOne at hred
    have hi0 : idxE [e0, e1, e2] 0 = .ok e0 := rfl
    rw [hi0, ok_bind] at hred
    have hf : f ∈ e0.map Prod.fst := getAttr_some_mem h0
    obtain ⟨s, u, hs, hu, hout⟩ :=
      @reduceKeys_ok_single_field e0 [e0, e1, e2] e1 e2 rfl rfl
        (e0.map Prod.fst) r f v0 v1 v2 hred hf h0 h1 h2
    rw [hout, specReducerFold_cons, specReducerFold_cons]
    have hc1 : tryCombine ("-" == "+") (some (TVal.single v0))
        (some (TVal.single v1)) = some (TVal.single s) := by
      simp [tryCombine, applyOpT, hs, Except.map, Except.toOption]
    have hc2 : tryCombine ("+" == "+") (some (TVal.single s))
        (some (TVal.single v2)) = some (TVal.single u) := by
      simp [tryCombine, applyOpT, hu, Except.map, Except.toOption]
    rw [hc1, hc2]
    rfl

theorem map_ok_elim {α β : Type} {e : Except RErr α} {g : α → β} {c : β}
    (h : e.map g = .ok c) : ∃ a, e = .ok a ∧ g a = c := by
  cases e with
  | error err =>
    rw [show (Except.error err : Except RErr α).map g
        = (Except.error err : Except RErr β) from rfl] at h
    cases h
  | ok a =>
    rw [show (Except.ok a : Except RErr α).map g = Except.ok (g a) from rfl] at h
    injection h with h
    exact ⟨a, rfl, h⟩

/-- C6: any successful offset < 0 run of `forward_batch_expr`'s buffer stage
computes, per example, exactly the spec's description (`negBufferSpec`):
partial-prefix encodings reduced, encoding resumed on the first
sub-expression's suffix seeded with the reduced hidden state, outputs
concatenated as reduced-partial then resumed, hidden taken from the resumed
encoding. -/
theorem claim_C6 (enc : List Int → EncBag) (encH : List Int → Option TVal → EncBag)
    (exps : List (List (List Int))) (k : Nat) (bufs : List Buffer)
    (h : negBuffers enc encH exps k = .ok bufs) :
    mapME (negBufferSpec enc encH k) exps = .ok bufs := by
  induction exps generalizing bufs with
  | nil =>
    have hnil : negBuffers enc encH [] k = .ok [] := rfl
    rw [hnil] at h
    injection h with h
    rw [← h]
    rfl
  | cons e es ih =>
    unfold negBuffers at h
    obtain ⟨parts, hparts, h⟩ := bind_ok_elim h
    obtain ⟨remaining, hrem, h⟩ := bind_ok_elim h
    obtain ⟨fulls, hfulls, h⟩ := bind_ok_elim h
    obtain ⟨p, ps, hp, hps, rfl⟩ := (mapME_cons_ok _ _ _ _).mp hparts
    obtain ⟨r, rs, hr, hrs, rfl⟩ := (mapME_cons_ok _ _ _ _).mp hrem
    rw [List.zip_cons_cons] at hfulls
    obtain ⟨fl, fls, hfl, hfls, rfl⟩ := (mapME_cons_ok _ _ _ _).mp hfulls
    rw [List.zip_cons_cons] at h
    obtain ⟨b, bs, hb, hbs, rfl⟩ := (mapME_cons_ok _ _ _ _).mp h
    obtain ⟨t0, ht0, hrt⟩ := map_ok_elim hr
    obtain ⟨hv0, hhv0, hflv⟩ := map_ok_elim hfl
    apply (mapME_cons_ok _ _ _ _).mpr
    refine ⟨b, bs, ?_, ?_, rfl⟩
    · unfold negBufferSpec
      have hflv2 : encH r (some hv0) = fl := hflv
      rw [hp, ok_bind, ht0, ok_bind, hhv0, ok_bind, hrt, hflv2]
      exact hb
    · apply ih
      unfold negBuffers
      rw [hps, ok_bind, hrs, ok_bind, hfls, ok_bind]
      exact hbs

/-- C6 (witness): the theorem at a concrete offset -1 run with three
sub-expressions. -/
theorem claim_C6_wit :
    mapME (negBufferSpec encA encHA 1) [[[1, 3, 2], [1, 4, 2], [1, 5, 2]]]
      = .ok [{ enc_hidden := some (TVal.single [1]),
               enc_outputs := some (TVal.single [5, 2]) }] :=
  claim_C6 encA encHA [[[1, 3, 2], [1, 4, 2], [1, 5, 2]]] 1
    [{ enc_hidden := some (TVal.single [1]),
       enc_outputs := some (TVal.single [5, 2]) }] (by decide)

/-- A successful run of the EOS composition stage satisfies both shape
assertions: the composed outputs length equals the first sub-expression's
full input length, and the hidden state has exactly one layer. -/
theorem eosCompose_ok {encH : List Int → Option TVal → EncBag}
    {firstSrc : List Int} {buf : Buffer} {pr : TVal × TVal}
    (h : eosCompose encH firstSrc buf = .ok pr) :
    ∃ o hd, pr.2 = TVal.single o ∧ o.length = firstSrc.length ∧
      pr.1 = TVal.single hd ∧ hd.length = 1 := by
  unfold eosCompose at h
  obtain ⟨eosTok, _, h⟩ := bind_ok_elim h
  obtain ⟨to1, _, h⟩ := bind_ok_elim h
  obtain ⟨bo, _, h⟩ := bind_ok_elim h
  obtain ⟨newOut, _, h⟩ := bind_ok_elim h
  obtain ⟨th, _, h⟩ := bind_ok_elim h
  obtain ⟨u1, ha1, h⟩ := bind_ok_elim h
  obtain ⟨u2, ha2, h⟩ := bind_ok_elim h
  injection h with h
  cases newOut with
  | pair a b => cases ha1
  | single o =>
    cases th with
    | pair a b => cases ha2
    | single hd =>
      have ha1r : (if o.length = firstSrc.length then Except.ok ()
          else (Except.error RErr.assertErr : Except RErr Unit)) = Except.ok u1 := ha1
      have ha2r : (if hd.length = 1 then Except.ok ()
          else (Except.error RErr.assertErr : Except RErr Unit)) = Except.ok u2 := ha2
      by_cases hlen : o.length = firstSrc.length
      · by_cases hhd : hd.length = 1
        · exact ⟨o, hd, by rw [← h], hlen, by rw [← h], hhd⟩
        · rw [if_neg hhd] at ha2r; cases ha2r
      · rw [if_neg hlen] at ha1r
        cases ha1r

/-- C7 (amended): whenever EOS-aware composition completes, the two asserted
shape contracts hold — the composed per-step output length equals the time
length of the original (unsplit) first sub-expression's input and the hidden
state has exactly one layer; violations of these final checks are assertion
failures, but (per the counterexample) a shape mismatch inside the reduction
fold is swallowed by the bare `except` as a missing field rather than
asserted. -/
theorem claim_C7 (enc : List Int → EncBag) (encH : List Int → Option TVal → EncBag)
    (src tg2 : List Int) (rest : List ExprTerm) (bag : EncBag)
    (h : forwardExprEos enc encH (ExprTerm.sub src tg2 :: rest) = .ok bag) :
    ∃ o hd, getAttr bag .enc_outputs = some (TVal.single o) ∧
      o.length = src.length ∧
      getAttr bag .enc_hidden = some (TVal.single hd) ∧ hd.length = 1 := by
  unfold forwardExprEos at h
  have h2 : (eosCompose encH src
      (arithReduce ((ExprTerm.sub src tg2 :: rest).map (fun t => match t with
        | .opStr s => RTerm.opStr s
        | .sub s2 _ => RTerm.enc (enc s2.dropLast)))) >>= fun pr =>
    headE (subSources (ExprTerm.sub src tg2 :: rest)) >>= fun s0 =>
    firstTag (ExprTerm.sub src tg2 :: rest) >>= fun tg3 =>
    Except.ok (attachBuffer
      [(BagKey.source, TVal.single s0), (BagKey.transform, TVal.single tg3)]
      { enc_hidden := some pr.1, enc_outputs := some pr.2 })) = .ok bag := h
  obtain ⟨pr, hpr, h2⟩ := bind_ok_elim h2
  obtain ⟨s0, hs0, h2⟩ := bind_ok_elim h2
  obtain ⟨tg3, htg3, h2⟩ := bind_ok_elim h2
  injection h2 with h2
  obtain ⟨o, hd, hp2, hlen, hp1, hhd⟩ := eosCompose_ok hpr
  have hgo : getAttr (attachBuffer
      [(BagKey.source, TVal.single s0), (BagKey.transform, TVal.single tg3)]
      { enc_hidden := some pr.1, enc_outputs := some pr.2 })
      BagKey.enc_outputs = some pr.2 := rfl
  have hgh : getAttr (attachBuffer
      [(BagKey.source, TVal.single s0), (BagKey.transform, TVal.single tg3)]
      { enc_hidden := some pr.1, enc_outputs := some pr.2 })
      BagKey.enc_hidden = some pr.1 := rfl
  refine ⟨o, hd, ?_, hlen, ?_, hhd⟩
  · rw [← h2, hgo, hp2]
  · rw [← h2, hgh, hp1]

/-- C7 (witness): the theorem at a concrete successful EOS-aware run. -/
theorem claim_C7_wit :
    ∃ o hd,
      getAttr [(BagKey.source, TVal.single [1, 3, 2]),
               (BagKey.transform, TVal.single [7]),
               (BagKey.enc_hidden, TVal.single [1]),
               (BagKey.enc_outputs, TVal.single [4, 9, 3])]
          BagKey.enc_outputs = some (TVal.single o) ∧
      o.length = ([1, 3, 2] : List Int).length ∧
      getAttr [(BagKey.source, TVal.single [1, 3, 2]),
               (BagKey.transform, TVal.single [7]),
               (BagKey.enc_hidden, TVal.single [1]),
               (BagKey.enc_outputs, TVal.single [4, 9, 3])]
          BagKey.enc_hidden = some (TVal.single hd) ∧ hd.length = 1 :=
  claim_C7 encC encHC [1, 3, 2] [7] [ExprTerm.opStr "+", ExprTerm.sub [1, 4, 2] [7]]
    [(BagKey.source, TVal.single [1, 3, 2]),
     (BagKey.transform, TVal.single [7]),
     (BagKey.enc_hidden, TVal.single [1]),
     (BagKey.enc_outputs, TVal.single [4, 9, 3])]
    (by decide)

/-! ### Characterisation of the splitter -/

theorem zeroIdxsFrom_append (l1 l2 : List Int) :
    ∀ i, zeroIdxsFrom (l1 ++ l2) i
      = zeroIdxsFrom l1 i ++ zeroIdxsFrom l2 (i + l1.length) := by
  induction l1 with
  | nil => intro i; simp [zeroIdxsFrom]
  | cons a t ih =>
    intro i
    have harith : i + 1 + t.length = i + (t.length + 1) := by omega
    simp only [List.cons_append, List.length_cons, zeroIdxsFrom, List.append_eq]
    by_cases ha : a = 0
    · rw [if_pos ha, if_pos ha, ih (i + 1), harith, List.cons_append]
    · rw [if_neg ha, if_neg ha, ih (i + 1), harith]

theorem zeroIdxsFrom_zero_free {l : List Int} (h : ∀ x ∈ l, x ≠ 0) :
    ∀ i, zeroIdxsFrom l i = [] := by
  induction l with
  | nil => intro i; rfl
  | cons a t ih =>
    intro i
    have ha : a ≠ 0 := h a (List.mem_cons_self a t)
    simp only [zeroIdxsFrom, if_neg ha]
    exact ih (fun x hx => h x (List.mem_cons_of_mem a hx)) (i + 1)

theorem withOps_append (xs ys : List (List Int)) :
    withOps (xs ++ ys) = withOps xs ++ withOps ys := by
  unfold withOps
  rw [List.map_append, List.flatten_append]

theorem zeroIdxsFrom_withOps {ss : List (List Int)}
    (h : ∀ s ∈ ss, ∀ x ∈ s, x ≠ 0) :
    ∀ p, zeroIdxsFrom (withOps ss) p = allOps p ss := by
  induction ss with
  | nil => intro p; rfl
  | cons s ss ih =>
    intro p
    have hs : ∀ x ∈ s, x ≠ 0 := h s (List.mem_cons_self s ss)
    have hss : ∀ s2 ∈ ss, ∀ x ∈ s2, x ≠ 0 :=
      fun s2 hs2 => h s2 (List.mem_cons_of_mem s hs2)
    have hd : withOps (s :: ss) = ((0 : Int) :: s) ++ withOps ss := by
      unfold withOps
      rw [List.map_cons, List.flatten_cons]
    rw [hd, zeroIdxsFrom_append]
    simp only [zeroIdxsFrom, if_pos rfl, List.length_cons]
    rw [zeroIdxsFrom_zero_free hs (p + 1), ih hss]
    have harith : p + (s.length + 1) = p + 1 + s.length := by omega
    rw [harith]
    rfl

theorem splitBounds_allOps :
    ∀ (ss : List (List Int)) (s : List Int) (p len : Nat),
      len = p + 1 + s.length + (withOps ss).length →
      splitBounds len p (allOps (p + 1 + s.length) ss) = segBounds p (s :: ss) := by
  intro ss
  induction ss with
  | nil =>
    intro s p len hlen
    simp only [allOps, splitBounds, segBounds]
    have : len = p + 1 + s.length := by
      have : (withOps ([] : List (List Int))).length = 0 := rfl
      omega
    rw [this]
  | cons s2 ss2 ih =>
    intro s p len hlen
    simp only [allOps, splitBounds, segBounds]
    have harith : len = (p + 1 + s.length) + 1 + s2.length + (withOps ss2).length := by
      have hw : (withOps (s2 :: ss2)).length = 1 + s2.length + (withOps ss2).length := by
        have hd : withOps (s2 :: ss2) = ((0 : Int) :: s2) ++ withOps ss2 := by
          unfold withOps
          rw [List.map_cons, List.flatten_cons]
        rw [hd, List.length_append, List.length_cons]
        omega
      omega
    rw [ih s2 (p + 1 + s.length) len harith]
    rfl

theorem segBounds_append (xs ys : List (List Int)) :
    ∀ p, segBounds p (xs ++ ys)
      = segBounds p xs ++ segBounds (p + (withOps xs).length) ys := by
  induction xs with
  | nil => intro p; simp [segBounds, withOps]
  | cons s xs ih =>
    intro p
    simp only [List.cons_append, segBounds, List.append_eq, ih (p + 1 + s.length)]
    have hw : (withOps (s :: xs)).length = 1 + s.length + (withOps xs).length := by
      have hd : withOps (s :: xs) = ((0 : Int) :: s) ++ withOps xs := by
        unfold withOps
        rw [List.map_cons, List.flatten_cons]
      rw [hd, List.length_append, List.length_cons]
      omega
    have harith : p + 1 + s.length + (withOps xs).length
        = p + (withOps (s :: xs)).length := by omega
    rw [harith]

theorem allOps_head (p : Nat) (s : List Int) (ss : List (List Int)) :
    allOps p (s :: ss) = p :: allOps (p + 1 + s.length) ss := rfl

theorem segReads {exp : List Int} :
    ∀ (ss : List (List Int)) (p : Nat) (tail0 : List Int),
      exp.drop p = withOps ss ++ tail0 →
      (segBounds p ss).map (fun pr => sliceL exp pr.1 pr.2)
        = ss.map (fun t => (0 : Int) :: t) := by
  intro ss
  induction ss with
  | nil => intro p tail0 _; rfl
  | cons s ss ih =>
    intro p tail0 hdrop
    have hd : withOps (s :: ss) = ((0 : Int) :: s) ++ withOps ss := by
      unfold withOps
      rw [List.map_cons, List.flatten_cons]
    rw [hd, List.append_assoc] at hdrop
    simp only [segBounds, List.map_cons]
    have hhead : sliceL exp p (p + 1 + s.length) = (0 : Int) :: s := by
      unfold sliceL
      rw [hdrop]
      have h1 : p + 1 + s.length - p = ((0 : Int) :: s).length := by
        simp only [List.length_cons]
        omega
      rw [h1, List.take_left]
    have hdrop2 : exp.drop (p + 1 + s.length) = withOps ss ++ tail0 := by
      have h2 : (exp.drop p).drop (((0 : Int) :: s).length)
          = exp.drop (p + 1 + s.length) := by
        rw [List.drop_drop]
        congr 1
        simp only [List.length_cons]
        omega
      rw [← h2, hdrop, List.drop_left]
    rw [hhead, ih (p + 1 + s.length) tail0 hdrop2]

theorem catStage_cons (orig : List Int) (eos : Int) (p q : Piece)
    (rest : List Piece) :
    catStage orig eos (p :: q :: rest)
      = Piece.copy (readPiece orig p ++ [eos]) :: catStage orig eos (q :: rest) := rfl

/-- `torch.cat` replaces every piece but the last with a fresh copy. -/
theorem catStage_append_last (orig : List Int) (eos : Int) :
    ∀ (ps : List Piece) (x : Piece),
      catStage orig eos (ps ++ [x])
        = ps.map (fun p => Piece.copy (readPiece orig p ++ [eos])) ++ [x] := by
  intro ps
  induction ps with
  | nil => intro x; rfl
  | cons p ps ih =>
    intro x
    cases ps with
    | nil => rfl
    | cons q qs =>
      have h1 : (p :: q :: qs) ++ [x] = p :: q :: (qs ++ [x]) := rfl
      have h2 : q :: (qs ++ [x]) = (q :: qs) ++ [x] := rfl
      rw [h1, catStage_cons, h2, ih x]
      simp [List.map_cons, List.cons_append]

/-- The head-rewrite loop over concatenated copies followed by one view:
only the view's write reaches the original column. -/
theorem rewriteHeads_copies_last (tok : Int) (s e : Nat) :
    ∀ (cs : List Piece) (orig : List Int),
      (∀ c ∈ cs, ∃ a t, c = Piece.copy (a :: t)) →
      s < e → s < orig.length →
      rewriteHeads tok orig (cs ++ [Piece.view s e])
        = .ok (orig.set s tok, cs.map (copyHead tok) ++ [Piece.view s e]) := by
  intro cs
  induction cs with
  | nil =>
    intro orig _ hse hlen
    simp only [List.nil_append, rewriteHeads, setHead]
    rw [if_pos ⟨hse, hlen⟩]
    rfl
  | cons c cs ih =>
    intro orig hcs hse hlen
    obtain ⟨a, t, rfl⟩ := hcs _ (List.mem_cons_self _ cs)
    have hstep : setHead orig (Piece.copy (a :: t)) tok
        = .ok (orig, Piece.copy (tok :: t)) := rfl
    simp only [List.cons_append, rewriteHeads, hstep, ok_bind, List.append_eq]
    rw [ih orig (fun c2 hc2 => hcs c2 (List.mem_cons_of_mem _ hc2)) hse hlen,
      ok_bind]
    rfl

/-- Dropping up to an in-place write exposes the written token. -/
theorem drop_set_self : ∀ (l : List Int) (p : Nat) (a : Int),
    (l.set p a).drop p = (match l.drop p with
      | [] => ([] : List Int)
      | _ :: t => a :: t) := by
  intro l
  induction l with
  | nil => intro p a; cases p <;> rfl
  | cons x t ih =>
    intro p a
    cases p with
    | zero => rfl
    | succ p => exact ih p a

/-- C1 (witness): the amended claim at concrete inputs — a two-term plus-fold
in the expression path and a concrete three-bag reduction in the batch
path. -/
theorem claim_C1_wit :
    arithReduce (interleave [(BagKey.enc_hidden, TVal.single [10])]
        [("+", [(BagKey.enc_hidden, TVal.single [5])])]) =
      { enc_hidden := some (TVal.single [15]), enc_outputs := none } ∧
    getAttr [(BagKey.enc_hidden, TVal.single [109])] BagKey.enc_hidden =
      specReducerFold (some (TVal.single [10]))
        [("-", some (TVal.single [1])), ("+", some (TVal.single [100]))] :=
  ⟨(claim_C1.1 [(BagKey.enc_hidden, TVal.single [10])]
      [("+", [(BagKey.enc_hidden, TVal.single [5])])]).trans (by decide),
   claim_C1.2 [(BagKey.enc_hidden, TVal.single [10])]
      [(BagKey.enc_hidden, TVal.single [1])]
      [(BagKey.enc_hidden, TVal.single [100])]
      [(BagKey.enc_hidden, TVal.single [109])]
      BagKey.enc_hidden [10] [1] [100]
      (by decide) (by decide) (by decide) (by decide)⟩

theorem withOps_cons (s : List Int) (ss : List (List Int)) :
    withOps (s :: ss) = ((0 : Int) :: s) ++ withOps ss := by
  unfold withOps
  rw [List.map_cons, List.flatten_cons]

theorem withOps_singleton (l : List Int) : withOps [l] = (0 : Int) :: l := by
  simp [withOps]

theorem headE_cons {α : Type} (x : α) (l : List α) : headE (x :: l) = .ok x := rfl

theorem readPiece_copy (orig : List Int) (l : List Int) :
    readPiece orig (Piece.copy l) = l := rfl

theorem zeroIdxs_decomp (sosTok : Int) (rest0 : List Int) (segs : List (List Int))
    (h0 : sosTok ≠ 0) (hr : ∀ x ∈ rest0, x ≠ 0)
    (hsegs : ∀ s ∈ segs, ∀ x ∈ s, x ≠ 0) :
    zeroIdxs ((sosTok :: rest0) ++ withOps segs)
      = allOps (sosTok :: rest0).length segs := by
  have hseg0 : ∀ x ∈ (sosTok :: rest0), x ≠ 0 := by
    intro x hx
    rcases List.mem_cons.mp hx with h | h
    · rw [h]; exact h0
    · exact hr x h
  unfold zeroIdxs
  rw [zeroIdxsFrom_append, zeroIdxsFrom_zero_free hseg0,
    zeroIdxsFrom_withOps hsegs]
  simp

theorem allOps_append (xs ys : List (List Int)) :
    ∀ p, allOps p (xs ++ ys) = allOps p xs ++ allOps (p + (withOps xs).length) ys := by
  induction xs with
  | nil => intro p; simp [allOps, withOps]
  | cons s xs ih =>
    intro p
    simp only [List.cons_append, allOps, List.append_eq, ih (p + 1 + s.length)]
    have hw : (withOps (s :: xs)).length = 1 + s.length + (withOps xs).length := by
      rw [withOps_cons, List.length_append, List.length_cons]
      omega
    have harith : p + 1 + s.length + (withOps xs).length
        = p + (withOps (s :: xs)).length := by omega
    rw [harith]

theorem splitBounds_top (m L : Nat) (mids : List (List Int)) (lst : List Int)
    (hinv : L = m + (withOps mids).length + 1 + lst.length) :
    splitBounds L 0 (allOps m (mids ++ [lst]))
      = (0, m) :: (segBounds m mids
          ++ [(m + (withOps mids).length,
               m + (withOps mids).length + 1 + lst.length)]) := by
  obtain ⟨s1, ss1, hsl⟩ : ∃ s1 ss1, mids ++ [lst] = s1 :: ss1 := by
    cases mids with
    | nil => exact ⟨lst, [], rfl⟩
    | cons a as2 => exact ⟨a, as2 ++ [lst], rfl⟩
  have hl2 : (withOps (mids ++ [lst])).length = 1 + s1.length + (withOps ss1).length := by
    rw [hsl, withOps_cons, List.length_append, List.length_cons]
    omega
  have hl3 : (withOps (mids ++ [lst])).length = (withOps mids).length + 1 + lst.length := by
    rw [withOps_append, withOps_singleton, List.length_append, List.length_cons]
    omega
  have hinv2 : L = m + 1 + s1.length + (withOps ss1).length := by omega
  rw [hsl, allOps_head]
  rw [show splitBounds L 0 (m :: allOps (m + 1 + s1.length) ss1)
      = (0, m) :: splitBounds L m (allOps (m + 1 + s1.length) ss1) from rfl]
  rw [splitBounds_allOps ss1 s1 m L hinv2, ← hsl, segBounds_append]
  rfl

theorem splitAndPadOne_char (sosTok : Int) (rest0 : List Int)
    (mids : List (List Int)) (lst : List Int) (eTok : Int)
    (h0 : sosTok ≠ 0) (hr : ∀ x ∈ rest0, x ≠ 0)
    (hm : ∀ s ∈ mids, ∀ x ∈ s, x ≠ 0)
    (hl : ∀ x ∈ lst, x ≠ 0) (hle : lst.getLast? = some eTok) :
    splitAndPadOne ((sosTok :: rest0) ++ withOps (mids ++ [lst]))
      = .ok
        (((sosTok :: rest0) ++ [eTok])
            :: (mids.map (fun s => sosTok :: (s ++ [eTok])) ++ [sosTok :: lst]),
         ((sosTok :: rest0) ++ withOps (mids ++ [lst])).set
           ((sosTok :: rest0).length + (withOps mids).length) sosTok) := by
  -- abbreviations (as plain terms)
  have hseg0 : ∀ x ∈ (sosTok :: rest0), x ≠ 0 := by
    intro x hx
    rcases List.mem_cons.mp hx with h | h
    · rw [h]; exact h0
    · exact hr x h
  have hsegs : ∀ s ∈ mids ++ [lst], ∀ x ∈ s, x ≠ 0 := by
    intro s hs
    rcases List.mem_append.mp hs with h | h
    · exact hm s h
    · rw [List.mem_singleton.mp h]
      exact hl
  have hz : zeroIdxs ((sosTok :: rest0) ++ withOps (mids ++ [lst]))
      = allOps (sosTok :: rest0).length (mids ++ [lst]) :=
    zeroIdxs_decomp sosTok rest0 (mids ++ [lst]) h0 hr hsegs
  have hlenE : ((sosTok :: rest0) ++ withOps (mids ++ [lst])).length
      = (sosTok :: rest0).length + (withOps mids).length + 1 + lst.length := by
    rw [withOps_append, withOps_singleton]
    simp only [List.length_append, List.length_cons]
    omega
  have hbounds : splitBounds ((sosTok :: rest0) ++ withOps (mids ++ [lst])).length 0
      (zeroIdxs ((sosTok :: rest0) ++ withOps (mids ++ [lst])))
      = (0, (sosTok :: rest0).length)
        :: (segBounds (sosTok :: rest0).length mids
            ++ [((sosTok :: rest0).length + (withOps mids).length,
                 (sosTok :: rest0).length + (withOps mids).length + 1 + lst.length)]) := by
    rw [hz]
    exact splitBounds_top (sosTok :: rest0).length _ mids lst hlenE
  have hdrop_m : ((sosTok :: rest0) ++ withOps (mids ++ [lst])).drop
      (sosTok :: rest0).length = withOps mids ++ ((0 : Int) :: lst) := by
    rw [List.drop_left, withOps_append, withOps_singleton]
  have hdrop_P : ((sosTok :: rest0) ++ withOps (mids ++ [lst])).drop
      ((sosTok :: rest0).length + (withOps mids).length) = (0 : Int) :: lst := by
    have h2 : ((((sosTok :: rest0) ++ withOps (mids ++ [lst])).drop
        (sosTok :: rest0).length).drop (withOps mids).length)
        = ((sosTok :: rest0) ++ withOps (mids ++ [lst])).drop
            ((sosTok :: rest0).length + (withOps mids).length) := by
      rw [List.drop_drop]
    rw [← h2, hdrop_m, List.drop_left]
  have hread0 : sliceL ((sosTok :: rest0) ++ withOps (mids ++ [lst])) 0
      (sosTok :: rest0).length = sosTok :: rest0 := by
    unfold sliceL
    rw [List.drop_zero]
    have hz0 : (sosTok :: rest0).length - 0 = (sosTok :: rest0).length := by omega
    rw [hz0, List.take_left]
  have hreadPQ : sliceL ((sosTok :: rest0) ++ withOps (mids ++ [lst]))
      ((sosTok :: rest0).length + (withOps mids).length)
      ((sosTok :: rest0).length + (withOps mids).length + 1 + lst.length)
      = (0 : Int) :: lst := by
    unfold sliceL
    rw [hdrop_P]
    have hq : (sosTok :: rest0).length + (withOps mids).length + 1 + lst.length
        - ((sosTok :: rest0).length + (withOps mids).length)
        = ((0 : Int) :: lst).length := by
      simp only [List.length_cons]
      omega
    rw [hq, List.take_length]
  have hmidreads : (segBounds (sosTok :: rest0).length mids).map
      (fun pr => sliceL ((sosTok :: rest0) ++ withOps (mids ++ [lst])) pr.1 pr.2)
      = mids.map (fun t => (0 : Int) :: t) :=
    segReads mids (sosTok :: rest0).length ((0 : Int) :: lst) hdrop_m
  have heTok : ((0 : Int) :: lst).getLast? = some eTok := by
    cases lst with
    | nil => cases hle
    | cons y ys => rw [List.getLast?_cons_cons]; exact hle
  have hget : pieceGet ((sosTok :: rest0) ++ withOps (mids ++ [lst]))
      (Piece.view 0 (sosTok :: rest0).length) 0 = .ok sosTok := by
    unfold pieceGet
    rw [show readPiece ((sosTok :: rest0) ++ withOps (mids ++ [lst]))
        (Piece.view 0 (sosTok :: rest0).length) = sosTok :: rest0 from hread0]
    rfl
  have hlastq : (Piece.view 0 (sosTok :: rest0).length ::
      (List.map (fun pr => Piece.view pr.1 pr.2)
          (segBounds (sosTok :: rest0).length mids) ++
        [Piece.view ((sosTok :: rest0).length + (withOps mids).length)
            ((sosTok :: rest0).length + (withOps mids).length + 1 + lst.length)])).getLast?
      = some (Piece.view ((sosTok :: rest0).length + (withOps mids).length)
            ((sosTok :: rest0).length + (withOps mids).length + 1 + lst.length)) := by
    rw [← List.cons_append]
    exact List.getLast?_concat _
  have hreadPQ2 : readPiece ((sosTok :: rest0) ++ withOps (mids ++ [lst]))
      (Piece.view ((sosTok :: rest0).length + (withOps mids).length)
        ((sosTok :: rest0).length + (withOps mids).length + 1 + lst.length))
      = (0 : Int) :: lst := hreadPQ
  have hM2 : List.map (fun p => Piece.copy
        (readPiece ((sosTok :: rest0) ++ withOps (mids ++ [lst])) p ++ [eTok]))
      (List.map (fun pr => Piece.view pr.1 pr.2)
        (segBounds (sosTok :: rest0).length mids))
      = mids.map (fun s => Piece.copy ((0 : Int) :: (s ++ [eTok]))) := by
    rw [List.map_map]
    have e3 : ((fun p => Piece.copy
          (readPiece ((sosTok :: rest0) ++ withOps (mids ++ [lst])) p ++ [eTok]))
        ∘ (fun pr : Nat × Nat => Piece.view pr.1 pr.2))
        = (fun l => Piece.copy (l ++ [eTok]))
          ∘ (fun pr : Nat × Nat =>
              sliceL ((sosTok :: rest0) ++ withOps (mids ++ [lst])) pr.1 pr.2) := rfl
    rw [e3, ← List.map_map, hmidreads, List.map_map]
    rfl
  have hcat0 : catStage ((sosTok :: rest0) ++ withOps (mids ++ [lst])) eTok
      (Piece.view 0 (sosTok :: rest0).length ::
        (List.map (fun pr => Piece.view pr.1 pr.2)
            (segBounds (sosTok :: rest0).length mids) ++
          [Piece.view ((sosTok :: rest0).length + (withOps mids).length)
              ((sosTok :: rest0).length + (withOps mids).length + 1 + lst.length)]))
      = Piece.copy (sliceL ((sosTok :: rest0) ++ withOps (mids ++ [lst])) 0
            (sosTok :: rest0).length ++ [eTok]) ::
          (List.map (fun p => Piece.copy
              (readPiece ((sosTok :: rest0) ++ withOps (mids ++ [lst])) p ++ [eTok]))
            (List.map (fun pr => Piece.view pr.1 pr.2)
              (segBounds (sosTok :: rest0).length mids)) ++
            [Piece.view ((sosTok :: rest0).length + (withOps mids).length)
              ((sosTok :: rest0).length + (withOps mids).length + 1 + lst.length)]) := by
    show catStage ((sosTok :: rest0) ++ withOps (mids ++ [lst])) eTok
      ((Piece.view 0 (sosTok :: rest0).length ::
        List.map (fun pr => Piece.view pr.1 pr.2)
            (segBounds (sosTok :: rest0).length mids)) ++
          [Piece.view ((sosTok :: rest0).length + (withOps mids).length)
              ((sosTok :: rest0).length + (withOps mids).length + 1 + lst.length)]) = _
    rw [catStage_append_last]
    rfl
  have hcat : catStage ((sosTok :: rest0) ++ withOps (mids ++ [lst])) eTok
      (Piece.view 0 (sosTok :: rest0).length ::
        (List.map (fun pr => Piece.view pr.1 pr.2)
            (segBounds (sosTok :: rest0).length mids) ++
          [Piece.view ((sosTok :: rest0).length + (withOps mids).length)
              ((sosTok :: rest0).length + (withOps mids).length + 1 + lst.length)]))
      = Piece.copy ((sosTok :: rest0) ++ [eTok]) ::
          (mids.map (fun s => Piece.copy ((0 : Int) :: (s ++ [eTok]))) ++
            [Piece.view ((sosTok :: rest0).length + (withOps mids).length)
              ((sosTok :: rest0).length + (withOps mids).length + 1 + lst.length)]) := by
    rw [hcat0, hread0, hM2]
  have hrw : rewriteHeads sosTok ((sosTok :: rest0) ++ withOps (mids ++ [lst]))
      (mids.map (fun s => Piece.copy ((0 : Int) :: (s ++ [eTok]))) ++
        [Piece.view ((sosTok :: rest0).length + (withOps mids).length)
          ((sosTok :: rest0).length + (withOps mids).length + 1 + lst.length)])
      = .ok (((sosTok :: rest0) ++ withOps (mids ++ [lst])).set
              ((sosTok :: rest0).length + (withOps mids).length) sosTok,
             (mids.map (fun s => Piece.copy ((0 : Int) :: (s ++ [eTok])))).map
                 (copyHead sosTok) ++
               [Piece.view ((sosTok :: rest0).length + (withOps mids).length)
                 ((sosTok :: rest0).length + (withOps mids).length + 1 + lst.length)]) := by
    apply rewriteHeads_copies_last
    · intro c hc
      obtain ⟨s, hs, rfl⟩ := List.mem_map.mp hc
      exact ⟨0, s ++ [eTok], rfl⟩
    · omega
    · rw [hlenE]; omega
  have hcopy : (mids.map (fun s => Piece.copy ((0 : Int) :: (s ++ [eTok])))).map
      (copyHead sosTok)
      = mids.map (fun s => Piece.copy (sosTok :: (s ++ [eTok]))) := by
    rw [List.map_map]
    rfl
  have hlastread : readPiece (((sosTok :: rest0) ++ withOps (mids ++ [lst])).set
        ((sosTok :: rest0).length + (withOps mids).length) sosTok)
      (Piece.view ((sosTok :: rest0).length + (withOps mids).length)
        ((sosTok :: rest0).length + (withOps mids).length + 1 + lst.length))
      = sosTok :: lst := by
    show sliceL _ _ _ = _
    unfold sliceL
    rw [drop_set_self, hdrop_P]
    rw [show (match (0 : Int) :: lst with
      | [] => ([] : List Int)
      | _ :: t => sosTok :: t) = sosTok :: lst from rfl]
    have hq : (sosTok :: rest0).length + (withOps mids).length + 1 + lst.length
        - ((sosTok :: rest0).length + (withOps mids).length)
        = (sosTok :: lst : List Int).length := by
      simp only [List.length_cons]
      omega
    rw [hq, List.take_length]
  have hfinmap : (mids.map (fun s => Piece.copy (sosTok :: (s ++ [eTok])))).map
      (readPiece (((sosTok :: rest0) ++ withOps (mids ++ [lst])).set
        ((sosTok :: rest0).length + (withOps mids).length) sosTok))
      = mids.map (fun s => sosTok :: (s ++ [eTok])) := by
    rw [List.map_map]
    rfl
  unfold splitAndPadOne
  rw [hbounds]
  simp only [List.map_cons, List.map_append, List.map_nil, headE_cons, ok_bind,
    hget]
  simp only [hlastq, ok_bind]
  simp only [hreadPQ2, heTok, ok_bind]
  simp only [hcat, List.drop_succ_cons, List.drop_zero, List.take_succ_cons,
    List.take_zero, hrw, ok_bind, hcopy]
  simp only [List.map_cons, List.map_append, List.map_nil, readPiece_copy,
    hfinmap, hlastread]
  rfl

/-- C5: on a well-formed column (start marker, zero-free operand segments
separated by operator markers), splitting at the operator-marker indices
yields: the first sub-expression keeps its start marker and gains an
appended end marker; every subsequent sub-expression's leading
operator-marker token is rewritten to the start marker; every sub-expression
except the last gains an appended end marker; and the last keeps the
original end marker. -/
theorem claim_C5 (sosTok : Int) (rest0 : List Int) (mids : List (List Int))
    (lst : List Int) (eTok : Int)
    (h0 : sosTok ≠ 0) (hr : ∀ x ∈ rest0, x ≠ 0)
    (hm : ∀ s ∈ mids, ∀ x ∈ s, x ≠ 0)
    (hl : ∀ x ∈ lst, x ≠ 0) (hle : lst.getLast? = some eTok) :
    ∃ mcol, splitAndPadOne ((sosTok :: rest0) ++ withOps (mids ++ [lst]))
      = .ok (((sosTok :: rest0) ++ [eTok])
          :: (mids.map (fun s => sosTok :: (s ++ [eTok])) ++ [sosTok :: lst]),
        mcol) :=
  ⟨_, splitAndPadOne_char sosTok rest0 mids lst eTok h0 hr hm hl hle⟩

/-- C5 (witness): the split of the column `[1,3,0,4,0,5,2]`. -/
theorem claim_C5_wit :
    ∃ mcol, splitAndPadOne [1, 3, 0, 4, 0, 5, 2]
      = .ok ([[1, 3, 2], [1, 4, 2], [1, 5, 2]], mcol) :=
  claim_C5 1 [3] [[4]] [5, 2] 2 (by decide) (by decide) (by decide) (by decide)
    (by decide)

/-- C10 (amended): the splitter's in-place head rewrite reaches the caller's
column only through the final sub-expression, which is still a
`tensor_split` view (earlier sub-expressions were replaced by fresh
`torch.cat` copies), so after the call the caller's column equals the
original with the *last* operator-marker position — and only that one —
overwritten with the start marker. -/
theorem claim_C10 (sosTok : Int) (rest0 : List Int) (mids : List (List Int))
    (lst : List Int) (eTok : Int)
    (h0 : sosTok ≠ 0) (hr : ∀ x ∈ rest0, x ≠ 0)
    (hm : ∀ s ∈ mids, ∀ x ∈ s, x ≠ 0)
    (hl : ∀ x ∈ lst, x ≠ 0) (hle : lst.getLast? = some eTok) :
    (zeroIdxs ((sosTok :: rest0) ++ withOps (mids ++ [lst]))).getLast?
      = some ((sosTok :: rest0).length + (withOps mids).length) ∧
    ∃ pcs, splitAndPadOne ((sosTok :: rest0) ++ withOps (mids ++ [lst]))
      = .ok (pcs, ((sosTok :: rest0) ++ withOps (mids ++ [lst])).set
          ((sosTok :: rest0).length + (withOps mids).length) sosTok) := by
  constructor
  · have hsegs : ∀ s ∈ mids ++ [lst], ∀ x ∈ s, x ≠ 0 := by
      intro s hs
      rcases List.mem_append.mp hs with h | h
      · exact hm s h
      · rw [List.mem_singleton.mp h]
        exact hl
    rw [zeroIdxs_decomp sosTok rest0 (mids ++ [lst]) h0 hr hsegs,
      allOps_append mids [lst] (sosTok :: rest0).length]
    rw [show allOps ((sosTok :: rest0).length + (withOps mids).length) [lst]
        = [(sosTok :: rest0).length + (withOps mids).length] from rfl]
    exact List.getLast?_concat _
  · exact ⟨_, splitAndPadOne_char sosTok rest0 mids lst eTok h0 hr hm hl hle⟩

/-- C10 (witness): the amended claim on the column `[1,3,0,4,0,5,2]` — the
last operator position is 4, and only it is overwritten. -/
theorem claim_C10_wit :
    (zeroIdxs [1, 3, 0, 4, 0, 5, 2]).getLast? = some 4 ∧
    ∃ pcs, splitAndPadOne [1, 3, 0, 4, 0, 5, 2]
      = .ok (pcs, [1, 3, 0, 4, 1, 5, 2]) :=
  claim_C10 1 [3] [[4]] [5, 2] 2 (by decide) (by decide) (by decide) (by decide)
    (by decide)

end Transduction
